import Mathlib

/-!
Verification of the qae unified search utility against its natural-language
specification.  The Rust sources are shallowly embedded: pure functions become
Lean functions; the traversal, regex and git collaborators become oracle
parameters; `BTreeMap` becomes an association list updated in place (its sorted
iteration order is not preserved, but every place the embedded program consumes
a map the final report is re-sorted by block key, so the order is never
observable); Rust `String` ordering (byte-wise over UTF-8) becomes code-point
lexicographic ordering, with which it agrees on valid UTF-8.

The repository contains two coexisting implementations of the search core: a
monolithic one in `main.rs` (namespace `Mono` below) and a modular refactor in
`cli.rs` / `search.rs` / `git.rs` / `output.rs` (namespace `Modular` below).
-/

/-- Code-point lexicographic strict order on character lists; agrees with
Rust's byte-wise `String::cmp` on valid UTF-8. -/
def lexLt : List Char → List Char → Bool
  | [], [] => false
  | [], _ :: _ => true
  | _ :: _, [] => false
  | a :: as, b :: bs =>
    if a.toNat < b.toNat then true
    else if b.toNat < a.toNat then false
    else lexLt as bs

/-- First-match lookup in an association list; extensional view of
`BTreeMap::get`. -/
def assocFind {α : Type} (k : String) : List (String × α) → Option α
  | [] => none
  | (k', v) :: rest => if k = k' then some v else assocFind k rest

/-- Update-or-append on an association list; extensional view of the
`BTreeMap` write operations (`insert`, `entry().or_default()`). -/
def assocUpd {α : Type} (k : String) (f : Option α → α) :
    List (String × α) → List (String × α)
  | [] => [(k, f none)]
  | (k', v) :: rest =>
    if k = k' then (k', f (some v)) :: rest else (k', v) :: assocUpd k f rest

/-- `BTreeMap::insert`: replace the entry for `k` by `v`. -/
def mapInsert {α : Type} (k : String) (v : α) (m : List (String × α)) :
    List (String × α) :=
  assocUpd k (fun _ => v) m

/-- `entry(k).or_default().push(x)`: append `x` to the (possibly fresh) list
entry for `k`. -/
def mapPush {α : Type} (k : String) (x : α) (m : List (String × List α)) :
    List (String × List α) :=
  assocUpd k (fun o => o.getD [] ++ [x]) m

/-- Insert a string into a sorted duplicate-free list; models `BTreeSet`
insertion with Rust's byte-wise string order. -/
def setInsert (x : String) : List String → List String
  | [] => [x]
  | y :: ys =>
    if lexLt x.data y.data then x :: y :: ys
    else if x = y then y :: ys
    else y :: setInsert x ys

/-- Collect a list of strings into a `BTreeSet` (sorted, duplicate-free). -/
def setOfList (l : List String) : List String :=
  l.foldl (fun acc x => setInsert x acc) []

/-- `ContentMatch` from `search.rs` / `main.rs`: a matching line with its
reported line number, or the binary-file marker. -/
inductive ContentMatch : Type
  | Line (line_number : Nat) (line : String)
  | BinaryFile
deriving DecidableEq, Repr

/-- One `Sink::matched` callback from the grep-searcher collaborator: the
line number it reports (if any) and the raw line bytes (already decoded;
lossy UTF-8 decoding is the identity in this model). -/
structure MatchEvent where
  lineNumber : Option Nat
  bytes : String
deriving DecidableEq, Repr

/-- One entry produced by the directory-walker collaborator: the path string
and whether the entry is a directory. -/
structure WalkEntry where
  path : String
  isDir : Bool
deriving DecidableEq, Repr

/-- The per-file outcome of the content-matching collaborator
(`Searcher::search_path` driving a `ContentSink`): an I/O error, or the list
of match callbacks together with the binary-byte offset (`Some` exactly when
binary data was detected). Arguments: pattern, case-insensitivity flag, path. -/
abbrev ContentOracle : Type :=
  String → Bool → String → Except String (List MatchEvent × Option Nat)

/-- A name matcher compiled by the regex collaborator: pattern,
case-insensitivity flag, candidate text. -/
abbrev NameOracle : Type := String → Bool → String → Bool

/-- Strip every trailing occurrence of `c`; Rust `trim_end_matches(c)`. -/
def trimTrailing (c : Char) (l : List Char) : List Char :=
  (l.reverse.dropWhile (fun d => d = c)).reverse

/-- The line text stored by `ContentSink::matched`: trailing newlines, then
trailing carriage returns, are stripped. -/
def trimLineEnd (s : String) : String :=
  ⟨trimTrailing '\r' (trimTrailing '\n' s.data)⟩

/-- `ContentSink::matched` records
`Line { line_number: mat.line_number().unwrap_or(0), line }`. -/
def sinkLine (ev : MatchEvent) : ContentMatch :=
  ContentMatch.Line (ev.lineNumber.getD 0) (trimLineEnd ev.bytes)

/-- The characters escaped by `regex::escape` (regex-syntax
`is_meta_character`). -/
def isMetaCharacter (c : Char) : Bool :=
  c ∈ ['\\', '.', '+', '*', '?', '(', ')', '|', '[', ']',
        Char.ofNat 123, Char.ofNat 125, '^', '$', '#', '&', '-', '~']

/-- Character-list core of `regex::escape`: prefix every metacharacter with a
backslash. -/
def escapeChars : List Char → List Char
  | [] => []
  | c :: cs =>
    if isMetaCharacter c then '\\' :: c :: escapeChars cs
    else c :: escapeChars cs

/-- `regex::escape`: escape every regex metacharacter in the input. -/
def rustRegexEscape (s : String) : String :=
  ⟨escapeChars s.data⟩

/-- Reading of an escaped pattern as a literal string: a backslash makes the
next character literal, a bare metacharacter means the pattern is not a plain
literal (`none`).  Used to state that `regex::escape` output matches only the
literal original text. -/
def parseEscaped : List Char → Option (List Char)
  | [] => some []
  | c :: rest =>
    if c = '\\' then
      match rest with
      | [] => none
      | d :: rest' => (parseEscaped rest').map (d :: ·)
    else if isMetaCharacter c then none
    else (parseEscaped rest).map (c :: ·)

/-- Shared body of `prepare_regex_pattern` (`main.rs` and `search.rs` are
identical): `-F` escapes the raw pattern, then `-w` wraps it in word
boundaries. -/
def preparedPattern (fixed word : Bool) (raw : String) : String :=
  let p := if fixed then rustRegexEscape raw else raw
  if word then "\\b" ++ p ++ "\\b" else p

/-- The sort key given to a repository's git-log block
(`format!("{repo}/\x7f")` in both `main.rs` and `output.rs`). -/
def gitLogKey (repo : String) : String :=
  repo ++ "/\x7f"

/-- One iteration state step of the printing loop in `print_blocks`
(`main.rs` / `output.rs`): `first` and `prev_multi` thread through the fold;
a blank line is emitted before a block when it is not first and either it or
its predecessor is multi-line. -/
def renderGo : List (List String) → Bool → Bool → List String
  | [], _, _ => []
  | lines :: rest, first, prevMulti =>
    (if !first && (decide (1 < lines.length) || prevMulti) then [""] else []) ++
      lines ++ renderGo rest false (decide (1 < lines.length))

/-- The printing loop of `print_blocks` started in its initial state. -/
def renderLoop (bs : List (List String)) : List String :=
  renderGo bs true false

/-- Stable insertion of a block into a key-sorted block list. -/
def insertByKey (x : String × List String) :
    List (String × List String) → List (String × List String)
  | [] => [x]
  | y :: ys => if lexLt x.1.data y.1.data then x :: y :: ys else y :: insertByKey x ys

/-- `blocks.sort_by(|a, b| a.0.cmp(&b.0))`: a stable sort by block key.
Insertion sort is stable, so it agrees with Rust's stable `sort_by`. -/
def sortByKey (l : List (String × List String)) : List (String × List String) :=
  l.foldl (fun acc x => insertByKey x acc) []

/-- The printing rule exactly as the spec states it (comparison definition
for the blank-line claim): a single blank line between two adjacent blocks
whenever either has more than one display line, and no other blank lines. -/
def sepJoinSpec : List (List String) → List String
  | [] => []
  | [b] => b
  | b :: b' :: rest =>
    b ++ (if 1 < b.length ∨ 1 < b'.length then [""] else []) ++ sepJoinSpec (b' :: rest)

namespace Mono

/-- The CLI record of the monolithic `main.rs` (its own `struct Cli`): no
case-sensitive or smart-case flags, a single optional include glob. -/
structure Cli where
  pattern : String
  path : String
  names_only : Bool
  content_only : Bool
  ignore_case : Bool
  hidden : Bool
  no_ignore : Bool
  file_type : Option String
  fixed_strings : Bool
  glob : Option String
  exclude : List String
  word_regexp : Bool
  log : Bool
  log_only : Bool
  verbose : Bool
deriving Repr

/-- `main.rs::prepare_regex_pattern`. -/
def prepare_regex_pattern (cli : Cli) : String :=
  preparedPattern cli.fixed_strings cli.word_regexp cli.pattern

/-- One iteration of the per-entry loop of `main.rs::search_content`:
walker errors are skipped, directories are skipped, per-file I/O errors are
skipped, and otherwise the file is classified — `if sink.saw_binary` push one
`BinaryFile`, else if the match list (`sink.matches`, the mapped events) is
non-empty insert it.  The source binds `sink.matches` with a `let`; it is
inlined here. -/
def content_step (co : ContentOracle) (pat : String) (ci : Bool)
    (results : List (String × List ContentMatch)) (it : Except String WalkEntry) :
    List (String × List ContentMatch) :=
  match it with
  | Except.error _ => results
  | Except.ok e =>
    if e.isDir then results
    else
      match co pat ci e.path with
      | Except.error _ => results
      | Except.ok (events, binOff) =>
        if binOff.isSome then mapPush e.path ContentMatch.BinaryFile results
        else if !(events.map sinkLine).isEmpty then
          mapInsert e.path (events.map sinkLine) results
        else results

/-- The per-entry loop of `main.rs::search_content`, parametrised by the
content-matching collaborator. -/
def content_loop (co : ContentOracle) (pat : String) (ci : Bool)
    (walk : List (Except String WalkEntry)) : List (String × List ContentMatch) :=
  walk.foldl (content_step co pat ci) []

/-- `main.rs::search_content`: build the matcher from the prepared pattern and
`cli.ignore_case`, then run the per-entry loop. -/
def search_content (cli : Cli) (co : ContentOracle)
    (walk : List (Except String WalkEntry)) : List (String × List ContentMatch) :=
  content_loop co (prepare_regex_pattern cli) cli.ignore_case walk

/-- `main.rs::GitLogMatch` (no date field; `git log --oneline`). -/
structure GitLogMatch where
  repo : String
  hash : String
  message : String
deriving DecidableEq, Repr

/-- `main.rs::git_log_blocks`: group matches by repository and emit one block
per repository, keyed by the repository path plus the trailing sentinel. -/
def git_log_blocks (log_matches : List GitLogMatch) : List (String × List String) :=
  (log_matches.foldl (fun m x => assocUpd x.repo (fun o => o.getD [] ++ [x]) m) []).map
    (fun rm =>
      (gitLogKey rm.1,
        (rm.1 ++ " (git log):") :: rm.2.map (fun x => "  " ++ x.hash ++ " " ++ x.message)))

/-- Display line for one content match (`main.rs::run`, content and both
modes). -/
def fmtContentMatch : ContentMatch → String
  | ContentMatch.Line n l => "  " ++ toString n ++ ":" ++ l
  | ContentMatch.BinaryFile => "  (binary file matches)"

/-- `main.rs::print_blocks` as a pure function: sort by key, then run the
printing loop; the returned list is the sequence of printed lines. -/
def print_blocks (blocks : List (String × List String)) : List String :=
  renderLoop ((sortByKey blocks).map Prod.snd)

/-- Block construction of the default (both) mode in `main.rs::run`
(lines 470-496): the sorted union of name-match paths and content-map keys,
where each path contributes its path line, then `  (name match)` when it is a
name match, then one line per content entry. -/
def bothBlocks (names : List String) (content : List (String × List ContentMatch)) :
    List (String × List String) :=
  (setOfList (names ++ content.map Prod.fst)).map
    (fun path =>
      (path,
        [path] ++ (if names.contains path then ["  (name match)"] else []) ++
          (match assocFind path content with
           | some ms => ms.map fmtContentMatch
           | none => [])))

/-- The three search collaborators as already-computed results, abstracting
`search_names`, `search_content` and `search_git_log` inside `run`; each can
fail like the corresponding `io::Result`. -/
structure Oracles where
  names : Except String (List String)
  content : Except String (List (String × List ContentMatch))
  gitlog : Except String (List GitLogMatch)

/-- `main.rs::run`: validate the mutually exclusive flag combinations first,
then dispatch on the mode and assemble, sort and print the blocks. -/
def run (cli : Cli) (o : Oracles) : Except String (List String) :=
  if cli.log_only && cli.names_only then
    Except.error "--log-only and --names-only are mutually exclusive"
  else if cli.log_only && cli.content_only then
    Except.error "--log-only and --content-only are mutually exclusive"
  else if cli.log_only && cli.glob.isSome then
    Except.error "--log-only and --glob are mutually exclusive"
  else if cli.log_only && !cli.exclude.isEmpty then
    Except.error "--log-only and --ignore are mutually exclusive"
  else if cli.log_only then do
    let lm ← o.gitlog
    pure (print_blocks (git_log_blocks lm))
  else if cli.names_only then do
    let nm ← o.names
    let base := nm.map (fun m => (m, [m]))
    let blocks ← if cli.log then do
        let lm ← o.gitlog
        pure (base ++ git_log_blocks lm)
      else pure base
    pure (print_blocks blocks)
  else if cli.content_only then do
    let cm ← o.content
    let base := cm.map (fun pc => (pc.1, pc.1 :: pc.2.map fmtContentMatch))
    let blocks ← if cli.log then do
        let lm ← o.gitlog
        pure (base ++ git_log_blocks lm)
      else pure base
    pure (print_blocks blocks)
  else do
    let nm ← o.names
    let cm ← o.content
    let base := bothBlocks nm cm
    let blocks ← if cli.log then do
        let lm ← o.gitlog
        pure (base ++ git_log_blocks lm)
      else pure base
    pure (print_blocks blocks)

/-- `main.rs::main`: exit code, stdout lines, stderr message.  A `run` error
is reported as `qae: {err}` and the process exits with code 1. -/
def mainRun (cli : Cli) (o : Oracles) : Nat × List String × Option String :=
  match run cli o with
  | Except.ok lines => (0, lines, none)
  | Except.error e => (1, [], some ("qae: " ++ e))

end Mono

namespace Modular

/-- The CLI record of the modular refactor (`cli.rs::Cli`). -/
structure Cli where
  pattern : Option String
  path : String
  names_only : Bool
  content_only : Bool
  ignore_case : Bool
  case_sensitive : Bool
  smart_case : Bool
  hidden : Bool
  no_ignore : Bool
  no_ignore_vcs : Bool
  file_type : Option String
  fixed_strings : Bool
  glob : List String
  exclude : List String
  word_regexp : Bool
  log : Bool
  no_log : Bool
  log_only : Bool
  verbose : Bool
  color : Option String
  type_list : Bool
  before_context : Option Nat
  after_context : Option Nat
  no_config : Bool
  line_number : Bool
  no_column : Bool
  with_filename : Bool
  no_heading : Bool
  completions : Option String
deriving Repr

/-- `cli.rs::Cli::wants_log`: git log search is on by default, `--no-log`
disables it, `-l` re-enables it. -/
def wants_log (cli : Cli) : Bool :=
  !cli.no_log || cli.log

/-- `cli.rs::Cli::is_case_insensitive`.  Rust's `char::is_uppercase` consults
the Unicode uppercase table, abstracted here as the parameter `upper`. -/
def is_case_insensitive (upper : Char → Bool) (cli : Cli) : Bool :=
  if cli.case_sensitive then false
  else if cli.ignore_case then true
  else if cli.smart_case then !((cli.pattern.getD "").data.any upper)
  else false

/-- `search.rs::prepare_regex_pattern`; the source `expect`s a present
pattern, modelled by returning `none` when it is absent. -/
def prepare_regex_pattern (cli : Cli) : Option String :=
  cli.pattern.map (preparedPattern cli.fixed_strings cli.word_regexp)

/-- The per-entry loop of `search.rs::search_names`: walker errors and
directories are skipped, and a path is collected when the compiled matcher
(oracle `re`, given the prepared pattern and the case-insensitivity flag)
accepts it. -/
def name_loop (re : NameOracle) (pat : String) (ci : Bool)
    (walk : List (Except String WalkEntry)) : List String :=
  walk.foldl
    (fun acc it =>
      match it with
      | Except.error _ => acc
      | Except.ok e =>
        if e.isDir then acc
        else if re pat ci e.path then acc ++ [e.path] else acc)
    []

/-- `search.rs::search_names`: compile the matcher from the prepared pattern
and `cli.ignore_case`, then run the per-entry loop. -/
def search_names (re : NameOracle) (cli : Cli)
    (walk : List (Except String WalkEntry)) : List String :=
  match prepare_regex_pattern cli with
  | none => []
  | some pat => name_loop re pat cli.ignore_case walk

/-- One iteration of the per-entry loop of `search.rs::search_content`;
identical to the monolithic one except for the binary classification: a
`BinaryFile` marker is pushed only when binary data was detected *and* at
least one match was accumulated (`sink.saw_binary && !sink.matches.is_empty()`).
The source binds `sink.matches` with a `let`; it is inlined here. -/
def content_step (co : ContentOracle) (pat : String) (ci : Bool)
    (results : List (String × List ContentMatch)) (it : Except String WalkEntry) :
    List (String × List ContentMatch) :=
  match it with
  | Except.error _ => results
  | Except.ok e =>
    if e.isDir then results
    else
      match co pat ci e.path with
      | Except.error _ => results
      | Except.ok (events, binOff) =>
        if binOff.isSome && !(events.map sinkLine).isEmpty then
          mapPush e.path ContentMatch.BinaryFile results
        else if !(events.map sinkLine).isEmpty then
          mapInsert e.path (events.map sinkLine) results
        else results

/-- The per-entry loop of `search.rs::search_content`, parametrised by the
content-matching collaborator. -/
def content_loop (co : ContentOracle) (pat : String) (ci : Bool)
    (walk : List (Except String WalkEntry)) : List (String × List ContentMatch) :=
  walk.foldl (content_step co pat ci) []

/-- `search.rs::search_content`: build the matcher from the prepared pattern
and `cli.ignore_case`, then run the per-entry loop. -/
def search_content (cli : Cli) (co : ContentOracle)
    (walk : List (Except String WalkEntry)) : List (String × List ContentMatch) :=
  match prepare_regex_pattern cli with
  | none => []
  | some pat => content_loop co pat cli.ignore_case walk

/-- The git argv assembled by `git.rs::search_git_log` for one repository:
the fixed log/format arguments, `-i` exactly when `cli.ignore_case`, then the
grep pattern. -/
def git_log_args (cli : Cli) (repo : String) : Option (List String) :=
  (prepare_regex_pattern cli).map
    (fun pat =>
      ["-C", repo, "log", "--format=%h %ad %s", "--date=short", "-E"] ++
        (if cli.ignore_case then ["-i"] else []) ++ ["--grep", pat])

/-- `git.rs::GitLogMatch` (with the date field of the fixed format). -/
structure GitLogMatch where
  repo : String
  hash : String
  date : String
  message : String
deriving DecidableEq, Repr

/-- `output.rs::git_log_blocks`: group matches by repository and emit one
block per repository, keyed by the repository path plus the trailing
sentinel. -/
def git_log_blocks (log_matches : List GitLogMatch) : List (String × List String) :=
  (log_matches.foldl (fun m x => assocUpd x.repo (fun o => o.getD [] ++ [x]) m) []).map
    (fun rm =>
      (gitLogKey rm.1,
        (rm.1 ++ " (git log):") ::
          rm.2.map (fun x => "  " ++ x.hash ++ " " ++ x.date ++ " " ++ x.message)))

/-- Modelled from the spec: the modular crate's binary entry point is not
among the sources (only `cli.rs`, `search.rs`, `git.rs`, `output.rs` are);
per spec section 4.1 the Pattern Resolver hands the collectors the resolved
case-sensitivity boolean, so the entry point passes the collectors a `Cli`
whose `ignore_case` field carries `Cli::is_case_insensitive`. -/
def resolveCli (upper : Char → Bool) (cli : Cli) : Cli :=
  { cli with ignore_case := is_case_insensitive upper cli }

end Modular

/-- The documented case-policy precedence stated by the spec as one boolean
formula (comparison definition): insensitive exactly when there is no
explicit case-sensitive override and either ignore-case is set or smart-case
is set with an uppercase-free raw pattern. -/
def specCaseInsensitive (upper : Char → Bool) (cli : Modular.Cli) : Bool :=
  !cli.case_sensitive &&
    (cli.ignore_case || (cli.smart_case && !((cli.pattern.getD "").data.any upper)))

/-- Does the first list begin the second one (list-prefix test)? -/
def beginsWith : List Char → List Char → Bool
  | [], _ => true
  | _ :: _, [] => false
  | a :: as, b :: bs => a = b && beginsWith as bs

theorem assocFind_assocUpd {α : Type} (k p : String) (f : Option α → α)
    (m : List (String × α)) :
    assocFind p (assocUpd k f m) =
      if p = k then some (f (assocFind k m)) else assocFind p m := by
  induction m with
  | nil =>
    by_cases h : p = k <;> simp [assocFind, assocUpd, h]
  | cons hd tl ih =>
    obtain ⟨k', v⟩ := hd
    by_cases hk : k = k'
    · subst hk
      by_cases hp : p = k <;> simp [assocFind, assocUpd, hp]
    · by_cases hp : p = k'
      · subst hp
        have hpk : ¬p = k := fun h => hk h.symm
        simp [assocFind, assocUpd, hk, hpk]
      · simp [assocFind, assocUpd, hk, hp, ih]

theorem mem_setInsert (a x : String) (l : List String) :
    a ∈ setInsert x l ↔ a = x ∨ a ∈ l := by
  induction l with
  | nil => simp [setInsert]
  | cons y ys ih =>
    show a ∈ (if lexLt x.data y.data then x :: y :: ys
        else if x = y then y :: ys else y :: setInsert x ys) ↔ _
    by_cases h1 : lexLt x.data y.data = true
    · rw [if_pos h1]
      simp [List.mem_cons]
    · rw [if_neg h1]
      by_cases h2 : x = y
      · rw [if_pos h2]
        subst h2
        simp only [List.mem_cons]
        tauto
      · rw [if_neg h2]
        simp only [List.mem_cons, ih]
        tauto

theorem mem_setOfList (a : String) (l : List String) : a ∈ setOfList l ↔ a ∈ l := by
  have general : ∀ (l : List String) (acc : List String),
      a ∈ l.foldl (fun acc x => setInsert x acc) acc ↔ a ∈ acc ∨ a ∈ l := by
    intro l
    induction l with
    | nil => intro acc; simp
    | cons x xs ih =>
      intro acc
      simp only [List.foldl_cons, ih, mem_setInsert, List.mem_cons]
      tauto
  simpa [setOfList] using general l []

theorem assocFind_map_key {α : Type} (l : List String) (f : String → α) (p : String)
    (h : p ∈ l) :
    assocFind p (l.map (fun x => (x, f x))) = some (f p) := by
  induction l with
  | nil => cases h
  | cons x xs ih =>
    rcases List.mem_cons.mp h with h1 | h1
    · subst h1; simp [assocFind]
    · by_cases hx : p = x
      · subst hx; simp [assocFind]
      · simp [assocFind, hx, ih h1]

theorem not_meta_ne_backslash {c : Char} (h : isMetaCharacter c = false) : c ≠ '\\' := by
  intro heq
  subst heq
  simp [isMetaCharacter] at h

theorem parseEscaped_escapeChars (l : List Char) :
    parseEscaped (escapeChars l) = some l := by
  induction l with
  | nil => rfl
  | cons c cs ih =>
    by_cases h : isMetaCharacter c
    · simp [escapeChars, h, parseEscaped, ih]
    · have hb : c ≠ '\\' := not_meta_ne_backslash (by simpa using h)
      rw [escapeChars, if_neg (by simpa using h)]
      unfold parseEscaped
      simp [hb, h, ih]

theorem is_case_insensitive_eq_spec (upper : Char → Bool) (cli : Modular.Cli) :
    Modular.is_case_insensitive upper cli = specCaseInsensitive upper cli := by
  unfold Modular.is_case_insensitive specCaseInsensitive
  cases hcs : cli.case_sensitive <;> cases hic : cli.ignore_case <;>
    cases hsc : cli.smart_case <;> simp

theorem char_toNat_inj {c d : Char} (h : c.toNat = d.toNat) : c = d := by
  apply Char.ext
  apply UInt32.ext
  simpa [Char.toNat] using h

theorem lexLt_append_left (p a b : List Char) :
    lexLt (p ++ a) (p ++ b) = lexLt a b := by
  induction p with
  | nil => rfl
  | cons c cs ih => simp [lexLt, ih]

theorem lexLt_head_lt {c d : Char} (as bs : List Char) (h : c.toNat < d.toNat) :
    lexLt (c :: as) (d :: bs) = true := by
  simp [lexLt, h]

theorem lexLt_append_of_lt_not_begins :
    ∀ (a b u v : List Char), lexLt a b = true → beginsWith a b = false →
      lexLt (a ++ u) (b ++ v) = true := by
  intro a
  induction a with
  | nil => intro b u v _ hpre; simp [beginsWith] at hpre
  | cons c as ih =>
    intro b u v hlt hpre
    cases b with
    | nil => simp [lexLt] at hlt
    | cons d bs =>
      by_cases h1 : c.toNat < d.toNat
      · exact lexLt_head_lt _ _ h1
      · by_cases h2 : d.toNat < c.toNat
        · simp [lexLt, h1, h2] at hlt
        · have hcd : c = d := char_toNat_inj (Nat.le_antisymm (Nat.le_of_not_lt h2) (Nat.le_of_not_lt h1))
          subst hcd
          have hlt' : lexLt as bs = true := by simpa [lexLt, h1, h2] using hlt
          have hpre' : beginsWith as bs = false := by simpa [beginsWith] using hpre
          have := ih bs u v hlt' hpre'
          simpa [lexLt, h1, h2] using this

theorem renderGo_sepJoin (bs : List (List String)) :
    ∀ b : List String,
      b ++ renderGo bs false (decide (1 < b.length)) = sepJoinSpec (b :: bs) := by
  induction bs with
  | nil => intro b; simp [renderGo, sepJoinSpec]
  | cons c rest ih =>
    intro b
    have ihc := ih c
    by_cases hb : 1 < b.length <;> by_cases hc : 1 < c.length <;>
      simp [renderGo, sepJoinSpec, hb, hc, ← ihc, List.append_assoc]

theorem renderLoop_sepJoin (bs : List (List String)) : renderLoop bs = sepJoinSpec bs := by
  cases bs with
  | nil => rfl
  | cons b rest =>
    have h := renderGo_sepJoin rest b
    by_cases hb : 1 < b.length <;>
      simpa [renderLoop, renderGo, hb] using h

theorem sepJoinSpec_ne_nil (bs : List (List String)) (b : List String) (hb : b ≠ []) :
    sepJoinSpec (b :: bs) ≠ [] := by
  cases bs with
  | nil => simpa [sepJoinSpec] using hb
  | cons c rest =>
    simp only [sepJoinSpec]
    exact List.append_ne_nil_of_left_ne_nil (List.append_ne_nil_of_left_ne_nil hb _) _

theorem sepJoinSpec_head (bs : List (List String)) (b : List String) (hb : b ≠ []) :
    (sepJoinSpec (b :: bs)).head? = b.head? := by
  cases bs with
  | nil => rfl
  | cons c rest =>
    simp only [sepJoinSpec]
    rw [List.append_assoc]
    exact List.head?_append_of_ne_nil b hb

theorem sepJoinSpec_getLast (bs : List (List String)) :
    ∀ b : List String, (∀ x ∈ b :: bs, x ≠ []) →
      ∃ lb ∈ b :: bs, (sepJoinSpec (b :: bs)).getLast? = lb.getLast? := by
  induction bs with
  | nil =>
    intro b _
    exact ⟨b, by simp, rfl⟩
  | cons c rest ih =>
    intro b hall
    have hall' : ∀ x ∈ c :: rest, x ≠ [] := by
      intro x hx
      exact hall x (List.mem_cons_of_mem _ hx)
    obtain ⟨lb, hmem, heq⟩ := ih c hall'
    refine ⟨lb, List.mem_cons_of_mem _ hmem, ?_⟩
    have hne : sepJoinSpec (c :: rest) ≠ [] := sepJoinSpec_ne_nil rest c (hall' c (by simp))
    simp only [sepJoinSpec]
    rw [List.getLast?_append_of_ne_nil _ hne]
    exact heq

/-- A `Modular.Cli` with every flag off, used to build concrete inputs. -/
def modularCliBase : Modular.Cli :=
  { pattern := none, path := ".", names_only := false, content_only := false,
    ignore_case := false, case_sensitive := false, smart_case := false,
    hidden := false, no_ignore := false, no_ignore_vcs := false,
    file_type := none, fixed_strings := false, glob := [], exclude := [],
    word_regexp := false, log := false, no_log := false, log_only := false,
    verbose := false, color := none, type_list := false,
    before_context := none, after_context := none, no_config := false,
    line_number := false, no_column := false, with_filename := false,
    no_heading := false, completions := none }

/-- A `Mono.Cli` with every flag off, used to build concrete inputs. -/
def monoCliBase : Mono.Cli :=
  { pattern := "", path := ".", names_only := false, content_only := false,
    ignore_case := false, hidden := false, no_ignore := false, file_type := none,
    fixed_strings := false, glob := none, exclude := [], word_regexp := false,
    log := false, log_only := false, verbose := false }

/-- Claim C7: under smart-case, with neither the explicit case-sensitive
override nor ignore-case set, the resolved case policy is insensitive if and
only if the raw, unescaped pattern contains no uppercase character; any
uppercase character forces sensitive matching. -/
theorem smart_case_insensitive_iff (upper : Char → Bool) (cli : Modular.Cli)
    (raw : String) (hcs : cli.case_sensitive = false) (hic : cli.ignore_case = false)
    (hsc : cli.smart_case = true) (hp : cli.pattern = some raw) :
    Modular.is_case_insensitive upper cli = true ↔ ∀ c ∈ raw.data, upper c = false := by
  simp only [Modular.is_case_insensitive, hcs, hic, hsc, hp, if_false, if_true,
    Bool.false_eq_true, Bool.true_eq_false, Option.getD_some]
  constructor
  · intro h c hc
    by_contra hup
    have : raw.data.any upper = true := List.any_eq_true.mpr ⟨c, hc, by simpa using hup⟩
    simp [this] at h
  · intro h
    have : raw.data.any upper = false := by
      rw [List.any_eq_false]
      intro c hc
      simp [h c hc]
    simp [this]

/-- Claim C7 witness: under smart case, the all-lowercase pattern `ab`
resolves to case-insensitive matching. -/
theorem smart_case_insensitive_iff_witness :
    Modular.is_case_insensitive Char.isUpper
      { modularCliBase with smart_case := true, pattern := some "ab" } = true :=
  (smart_case_insensitive_iff Char.isUpper _ "ab" rfl rfl rfl rfl).mpr (by decide)

/-- Claim C1: after the (spec-modelled) entry point resolves the case policy,
the matcher actually used by name search, content search and git-log search
is case-insensitive exactly when the documented precedence — explicit
case-sensitive over ignore-case over smart-case over default-sensitive —
resolves to insensitive, for every flag combination. -/
theorem case_policy_precedence (upper : Char → Bool) (cli : Modular.Cli)
    (raw : String) (hp : cli.pattern = some raw) (re : NameOracle)
    (co : ContentOracle) (walk : List (Except String WalkEntry)) (repo : String) :
    Modular.search_names re (Modular.resolveCli upper cli) walk =
        Modular.name_loop re (preparedPattern cli.fixed_strings cli.word_regexp raw)
          (specCaseInsensitive upper cli) walk ∧
      Modular.search_content (Modular.resolveCli upper cli) co walk =
        Modular.content_loop co (preparedPattern cli.fixed_strings cli.word_regexp raw)
          (specCaseInsensitive upper cli) walk ∧
      Modular.git_log_args (Modular.resolveCli upper cli) repo =
        some (["-C", repo, "log", "--format=%h %ad %s", "--date=short", "-E"] ++
          (if specCaseInsensitive upper cli then ["-i"] else []) ++
          ["--grep", preparedPattern cli.fixed_strings cli.word_regexp raw]) := by
  have hresolve : Modular.is_case_insensitive upper cli = specCaseInsensitive upper cli :=
    is_case_insensitive_eq_spec upper cli
  refine ⟨?_, ?_, ?_⟩ <;>
    simp [Modular.search_names, Modular.search_content, Modular.git_log_args,
      Modular.prepare_regex_pattern, Modular.resolveCli, hp, hresolve]

/-- Claim C1 witness: with smart case and the lowercase pattern `ab`, the git
log invocation receives the `-i` flag. -/
theorem case_policy_precedence_witness :
    Modular.git_log_args
        (Modular.resolveCli Char.isUpper
          { modularCliBase with pattern := some "ab", smart_case := true }) "r" =
      some ["-C", "r", "log", "--format=%h %ad %s", "--date=short", "-E", "-i", "--grep", "ab"] := by
  have h := (case_policy_precedence Char.isUpper
      { modularCliBase with pattern := some "ab", smart_case := true } "ab" rfl
      (fun _ _ _ => false) (fun _ _ _ => Except.ok ([], none)) [] "r").2.2
  rw [h]
  decide

/-- Claim C8: the effective pattern is built by escaping every regex
metacharacter first when literal mode is set (and the escaped pattern reads
back as exactly the literal raw text), then wrapping in word-boundary
assertions when whole-word mode is set; with neither flag the raw pattern is
returned unchanged.  Stated for the shared body and for both coexisting
implementations. -/
theorem prepare_pattern_structure (fixed word : Bool) (raw : String) :
    (fixed = false → word = false → preparedPattern fixed word raw = raw) ∧
      (word = false → fixed = true → preparedPattern fixed word raw = rustRegexEscape raw) ∧
      (word = true → preparedPattern fixed word raw =
        "\\b" ++ (if fixed then rustRegexEscape raw else raw) ++ "\\b") ∧
      parseEscaped (rustRegexEscape raw).data = some raw.data ∧
      (∀ cli : Mono.Cli, cli.pattern = raw → cli.fixed_strings = fixed →
        cli.word_regexp = word →
        Mono.prepare_regex_pattern cli = preparedPattern fixed word raw) ∧
      (∀ cli : Modular.Cli, cli.pattern = some raw → cli.fixed_strings = fixed →
        cli.word_regexp = word →
        Modular.prepare_regex_pattern cli = some (preparedPattern fixed word raw)) := by
  refine ⟨?_, ?_, ?_, ?_, ?_, ?_⟩
  · intro h1 h2; simp [preparedPattern, h1, h2]
  · intro h1 h2; simp [preparedPattern, h1, h2]
  · intro h; simp [preparedPattern, h]
  · simpa [rustRegexEscape] using parseEscaped_escapeChars raw.data
  · intro cli h1 h2 h3; simp [Mono.prepare_regex_pattern, h1, h2, h3]
  · intro cli h1 h2 h3; simp [Modular.prepare_regex_pattern, h1, h2, h3]

/-- Claim C8 witness: with literal and whole-word mode both set, the pattern
`a.b` is escaped first and then wrapped in word boundaries. -/
theorem prepare_pattern_structure_witness :
    Mono.prepare_regex_pattern
        { monoCliBase with pattern := "a.b", fixed_strings := true, word_regexp := true } =
      "\\ba\\.b\\b" := by
  rw [(prepare_pattern_structure true true "a.b").2.2.2.2.1 _ rfl rfl rfl]
  decide

/-- Claim C4 counterexample: the original claim is false as stated.  The
plain file path `r/é` lies inside repository `r`'s subtree yet sorts after
`r`'s git-log key (its first character after the `r/` prefix is above code
point 127), and the lexicographically later sibling `repo-x` of repository
`repo` contributes the entry `repo-x/a` which sorts before `repo`'s git-log
key. -/
theorem git_log_key_order_cex :
    ("r/\xE9" = "r" ++ "/" ++ "\xE9" ∧
        lexLt ("r/\xE9").data (gitLogKey "r").data = false) ∧
      (lexLt "repo".data "repo-x".data = true ∧
        lexLt (gitLogKey "repo").data ("repo-x/a").data = false) := by
  decide

/-- Claim C4 (amended): the git-log sort key (repository path plus trailing
sentinel) compares byte-wise strictly greater than every plain file path in
the repository's subtree whose first character after the repository-slash
prefix is below code point 127, and strictly less than every entry belonging
to a lexicographically later sibling directory whose name does not merely
extend the repository's name — in particular, for sibling repositories
`repo-a` and `repo-z`, `repo-a`'s git-log block sorts before every `repo-z`
entry. -/
theorem git_log_key_order :
    (∀ (repo : String) (c : Char) (rest : List Char), c.toNat < 127 →
        lexLt (repo.data ++ '/' :: c :: rest) (gitLogKey repo).data = true) ∧
      ∀ (parent n1 n2 : String) (x : List Char),
        lexLt n1.data n2.data = true → beginsWith n1.data n2.data = false →
        lexLt (gitLogKey (parent ++ "/" ++ n1)).data
          (parent.data ++ '/' :: (n2.data ++ x)) = true := by
  constructor
  · intro repo c rest hc
    have hkey : (gitLogKey repo).data = repo.data ++ ['/', Char.ofNat 127] := rfl
    rw [hkey]
    have : repo.data ++ '/' :: c :: rest = repo.data ++ ('/' :: c :: rest) := rfl
    rw [this, lexLt_append_left]
    have h127 : (Char.ofNat 127).toNat = 127 := by decide
    simp only [lexLt, Nat.lt_irrefl, if_false]
    exact lexLt_head_lt rest [] (by rw [h127]; exact hc)
  · intro parent n1 n2 x hlt hpre
    have hkey : (gitLogKey (parent ++ "/" ++ n1)).data =
        (parent.data ++ ['/']) ++ (n1.data ++ ['/', Char.ofNat 127]) := by
      show (parent ++ "/" ++ n1 ++ "/\x7f").data = _
      change parent.data ++ "/".data ++ n1.data ++ "/\x7f".data = _
      simp [List.append_assoc]
    have hother : parent.data ++ '/' :: (n2.data ++ x) =
        (parent.data ++ ['/']) ++ (n2.data ++ x) := by
      simp
    rw [hkey, hother, lexLt_append_left]
    exact lexLt_append_of_lt_not_begins n1.data n2.data _ _ hlt hpre

/-- Claim C4 witness: concrete instances of both amended bounds, including
the repo-a before repo-z ordering. -/
theorem git_log_key_order_witness :
    lexLt ("ra".data ++ '/' :: 'f' :: []) (gitLogKey "ra").data = true ∧
      lexLt (gitLogKey ("root" ++ "/" ++ "repo-a")).data
        ("root".data ++ '/' :: ("repo-z".data ++ "/file.txt".data)) = true :=
  ⟨git_log_key_order.1 "ra" 'f' [] (by decide),
    git_log_key_order.2 "root" "repo-a" "repo-z" "/file.txt".data (by decide) (by decide)⟩

/-- Claim C5: for every list of blocks (each with at least one display line,
none of them blank), the printed report is the blocks joined with a single
blank line between two adjacent blocks exactly when at least one of the two
has more than one display line; no blank line separates two adjacent
single-line blocks, none precedes the first block and none follows the
last. -/
theorem print_blocks_blank_line_rule (bs : List (List String))
    (hb : ∀ b ∈ bs, b ≠ []) (hl : ∀ b ∈ bs, ∀ l ∈ b, l ≠ "") :
    renderLoop bs = sepJoinSpec bs ∧
      (∀ x, (renderLoop bs).head? = some x → x ≠ "") ∧
      (∀ x, (renderLoop bs).getLast? = some x → x ≠ "") := by
  refine ⟨renderLoop_sepJoin bs, ?_, ?_⟩
  · intro x hx
    cases bs with
    | nil => simp [renderLoop, renderGo] at hx
    | cons b rest =>
      rw [renderLoop_sepJoin, sepJoinSpec_head rest b (hb b (by simp))] at hx
      exact hl b (by simp) x (List.mem_of_mem_head? hx)
  · intro x hx
    cases bs with
    | nil => simp [renderLoop, renderGo] at hx
    | cons b rest =>
      rw [renderLoop_sepJoin] at hx
      obtain ⟨lb, hmem, heq⟩ := sepJoinSpec_getLast rest b hb
      rw [heq] at hx
      exact hl lb hmem x (List.mem_of_mem_getLast? hx)

/-- Claim C5 witness: two single-line blocks stay adjacent with no blank
line, while the multi-line block gets a blank line on both sides. -/
theorem print_blocks_blank_line_rule_witness :
    renderLoop [["a"], ["b", "c"], ["d"], ["e"]] =
        sepJoinSpec [["a"], ["b", "c"], ["d"], ["e"]] ∧
      sepJoinSpec [["a"], ["b", "c"], ["d"], ["e"]] = ["a", "", "b", "c", "", "d", "e"] :=
  ⟨(print_blocks_blank_line_rule _ (by decide) (by decide)).1, by decide⟩

/-- Claim C3 counterexample: with the single name match `p` and no content
entries, the combined-mode block keyed by `p` has two display lines (the path
and the `  (name match)` annotation), not exactly one. -/
theorem name_only_block_two_lines_cex :
    Mono.bothBlocks ["p"] ([] : List (String × List ContentMatch)) =
        [("p", ["p", "  (name match)"])] ∧
      (Mono.bothBlocks ["p"] ([] : List (String × List ContentMatch))).map
          (fun b => b.2.length) = [2] := by
  decide

/-- Claim C3 (amended): in the combined mode, every path that is a name match
and has no corresponding content entry becomes an output block keyed by its
path with exactly two display lines: the path itself followed by the
`  (name match)` annotation. -/
theorem name_only_match_block (names : List String)
    (content : List (String × List ContentMatch)) (p : String)
    (hn : p ∈ names) (hc : assocFind p content = none) :
    assocFind p (Mono.bothBlocks names content) = some [p, "  (name match)"] := by
  unfold Mono.bothBlocks
  have hmem : p ∈ setOfList (names ++ content.map Prod.fst) :=
    (mem_setOfList _ _).mpr (List.mem_append.mpr (Or.inl hn))
  rw [assocFind_map_key _ _ _ hmem]
  have hcontains : names.contains p = true := by
    simpa [List.contains] using List.elem_eq_true_of_mem hn
  rw [hcontains, hc]
  simp

/-- Claim C3 witness: a name-only match alongside an unrelated content
match. -/
theorem name_only_match_block_witness :
    assocFind "p"
        (Mono.bothBlocks ["p", "q"] [("q", [ContentMatch.Line 1 "hit"])]) =
      some ["p", "  (name match)"] :=
  name_only_match_block ["p", "q"] [("q", [ContentMatch.Line 1 "hit"])] "p"
    (by decide) (by decide)

/-- Claim C6: whenever log-only is combined with names-only, content-only, an
include-glob or an exclude-glob, the program exits with code 1, prints
nothing on stdout, reports an error naming the specific conflicting flag
pair, and the outcome is independent of the three search collaborators —
i.e. the rejection happens before any name, content or log matching. -/
theorem log_only_conflicts_rejected (cli : Mono.Cli) (o o' : Mono.Oracles)
    (hl : cli.log_only = true)
    (hc : cli.names_only = true ∨ cli.content_only = true ∨
      cli.glob.isSome = true ∨ cli.exclude ≠ []) :
    Mono.mainRun cli o = Mono.mainRun cli o' ∧
      (Mono.mainRun cli o).1 = 1 ∧
      (Mono.mainRun cli o).2.1 = [] ∧
      (cli.names_only = true →
        (Mono.mainRun cli o).2.2 =
          some "qae: --log-only and --names-only are mutually exclusive") ∧
      (cli.names_only = false → cli.content_only = true →
        (Mono.mainRun cli o).2.2 =
          some "qae: --log-only and --content-only are mutually exclusive") ∧
      (cli.names_only = false → cli.content_only = false → cli.glob.isSome = true →
        (Mono.mainRun cli o).2.2 =
          some "qae: --log-only and --glob are mutually exclusive") ∧
      (cli.names_only = false → cli.content_only = false → cli.glob.isSome = false →
        cli.exclude ≠ [] →
        (Mono.mainRun cli o).2.2 =
          some "qae: --log-only and --ignore are mutually exclusive") := by
  cases hn : cli.names_only with
  | true =>
    have hrun : ∀ oo : Mono.Oracles,
        Mono.run cli oo = Except.error "--log-only and --names-only are mutually exclusive" := by
      intro oo
      simp [Mono.run, hl, hn]
    refine ⟨?_, ?_, ?_, ?_, ?_, ?_, ?_⟩ <;> simp [Mono.mainRun, hrun, hn]
  | false =>
    cases hco : cli.content_only with
    | true =>
      have hrun : ∀ oo : Mono.Oracles,
          Mono.run cli oo =
            Except.error "--log-only and --content-only are mutually exclusive" := by
        intro oo
        simp [Mono.run, hl, hn, hco]
      refine ⟨?_, ?_, ?_, ?_, ?_, ?_, ?_⟩ <;> simp [Mono.mainRun, hrun, hn, hco]
    | false =>
      cases hg : cli.glob.isSome with
      | true =>
        have hrun : ∀ oo : Mono.Oracles,
            Mono.run cli oo =
              Except.error "--log-only and --glob are mutually exclusive" := by
          intro oo
          simp [Mono.run, hl, hn, hco, hg]
        refine ⟨?_, ?_, ?_, ?_, ?_, ?_, ?_⟩ <;> simp [Mono.mainRun, hrun, hn, hco, hg]
      | false =>
        have hex : cli.exclude ≠ [] := by
          rcases hc with h | h | h | h
          · rw [hn] at h; cases h
          · rw [hco] at h; cases h
          · rw [hg] at h; cases h
          · exact h
        have hee : cli.exclude.isEmpty = false := by
          cases hE : cli.exclude.isEmpty with
          | false => rfl
          | true => exact absurd (List.isEmpty_iff.mp hE) hex
        have hrun : ∀ oo : Mono.Oracles,
            Mono.run cli oo =
              Except.error "--log-only and --ignore are mutually exclusive" := by
          intro oo
          simp [Mono.run, hl, hn, hco, hg, hee]
        refine ⟨?_, ?_, ?_, ?_, ?_, ?_, ?_⟩ <;>
          simp [Mono.mainRun, hrun, hn, hco, hg]

/-- Claim C6 witness: log-only together with names-only is rejected with exit
code 1, an empty stdout and the specific message, independently of the
oracles. -/
theorem log_only_conflicts_rejected_witness :
    Mono.mainRun { monoCliBase with pattern := "x", log_only := true, names_only := true }
        ⟨Except.ok [], Except.ok [], Except.ok []⟩ =
      (1, [], some "qae: --log-only and --names-only are mutually exclusive") := by
  have h := log_only_conflicts_rejected
    { monoCliBase with pattern := "x", log_only := true, names_only := true }
    ⟨Except.ok [], Except.ok [], Except.ok []⟩
    ⟨Except.error "io", Except.error "io", Except.error "io"⟩ rfl (Or.inl rfl)
  refine Prod.ext_iff.mpr ⟨h.2.1, Prod.ext_iff.mpr ⟨h.2.2.1, h.2.2.2.1 rfl⟩⟩

/-- The content collaborator's line-number contract at one walk item: every
match callback it reports for that file carries `Some n` with `0 < n` (so
`line_number().unwrap_or(0)` is positive), as the searcher requests with
`line_number(true)`. -/
def lineContract (co : ContentOracle) (pat : String) (ci : Bool)
    (it : Except String WalkEntry) : Bool :=
  match it with
  | Except.error _ => true
  | Except.ok e =>
    match co pat ci e.path with
    | Except.error _ => true
    | Except.ok (events, _) => events.all (fun ev => decide (0 < ev.lineNumber.getD 0))

theorem content_step_inv (co : ContentOracle) (pat : String) (ci : Bool)
    (acc : List (String × List ContentMatch)) (it : Except String WalkEntry)
    (hc : lineContract co pat ci it = true)
    (hacc : ∀ p ms, assocFind p acc = some ms →
      ∀ m ∈ ms, ∀ n l, m = ContentMatch.Line n l → 0 < n) :
    ∀ p ms, assocFind p (Modular.content_step co pat ci acc it) = some ms →
      ∀ m ∈ ms, ∀ n l, m = ContentMatch.Line n l → 0 < n := by
  intro p ms hfind
  cases it with
  | error s => exact hacc p ms (by simpa [Modular.content_step] using hfind)
  | ok e =>
    simp only [Modular.content_step] at hfind
    by_cases hd : e.isDir
    · rw [if_pos hd] at hfind
      exact hacc p ms hfind
    · rw [if_neg hd] at hfind
      cases hco : co pat ci e.path with
      | error s =>
        rw [hco] at hfind
        exact hacc p ms hfind
      | ok pr =>
        obtain ⟨events, binOff⟩ := pr
        rw [hco] at hfind
        dsimp only at hfind
        have hcontract : ∀ ev ∈ events, 0 < ev.lineNumber.getD 0 := by
          have := hc
          simp only [lineContract, hco, List.all_eq_true, decide_eq_true_eq] at this
          exact this
        by_cases hbin : (binOff.isSome && !(events.map sinkLine).isEmpty) = true
        · rw [if_pos hbin, mapPush, assocFind_assocUpd] at hfind
          by_cases hp : p = e.path
          · rw [if_pos hp] at hfind
            injection hfind with hms
            subst hms
            intro m hm n l heq
            rcases List.mem_append.mp hm with hm1 | hm2
            · cases hold : assocFind e.path acc with
              | none => rw [hold] at hm1; cases hm1
              | some ms0 =>
                rw [hold] at hm1
                exact hacc e.path ms0 hold m hm1 n l heq
            · rw [List.mem_singleton.mp hm2] at heq
              cases heq
          · rw [if_neg hp] at hfind
            exact hacc p ms hfind
        · rw [if_neg hbin] at hfind
          by_cases hne : (!(events.map sinkLine).isEmpty) = true
          · rw [if_pos hne, mapInsert, assocFind_assocUpd] at hfind
            by_cases hp : p = e.path
            · rw [if_pos hp] at hfind
              injection hfind with hms
              subst hms
              intro m hm n l heq
              obtain ⟨ev, hev, hm⟩ := List.mem_map.mp hm
              subst hm
              have : sinkLine ev = ContentMatch.Line n l := heq
              have hn : n = ev.lineNumber.getD 0 := by
                injection this.symm
              rw [hn]
              exact hcontract ev hev
            · rw [if_neg hp] at hfind
              exact hacc p ms hfind
          · rw [if_neg hne] at hfind
            exact hacc p ms hfind

theorem content_fold_inv (co : ContentOracle) (pat : String) (ci : Bool) :
    ∀ (walk : List (Except String WalkEntry)) (acc : List (String × List ContentMatch)),
      (∀ it ∈ walk, lineContract co pat ci it = true) →
      (∀ p ms, assocFind p acc = some ms →
        ∀ m ∈ ms, ∀ n l, m = ContentMatch.Line n l → 0 < n) →
      ∀ p ms, assocFind p (walk.foldl (Modular.content_step co pat ci) acc) = some ms →
        ∀ m ∈ ms, ∀ n l, m = ContentMatch.Line n l → 0 < n := by
  intro walk
  induction walk with
  | nil => intro acc _ hacc; simpa using hacc
  | cons it rest ih =>
    intro acc hall hacc
    rw [List.foldl_cons]
    exact ih (Modular.content_step co pat ci acc it)
      (fun x hx => hall x (List.mem_cons_of_mem _ hx))
      (content_step_inv co pat ci acc it (hall it (by simp)) hacc)

/-- Claim C9: assuming the content collaborator honours its 1-based
line-number contract on every reported match, no `Line` entry anywhere in the
content-search result map carries line number 0 (every stored line number is
positive). -/
theorem line_numbers_positive (co : ContentOracle) (pat : String) (ci : Bool)
    (walk : List (Except String WalkEntry))
    (h : ∀ it ∈ walk, lineContract co pat ci it = true) :
    ∀ p ms, assocFind p (Modular.content_loop co pat ci walk) = some ms →
      ∀ m ∈ ms, ∀ n l, m = ContentMatch.Line n l → 0 < n := by
  have := content_fold_inv co pat ci walk [] h (by intro p ms hfind; cases hfind)
  simpa [Modular.content_loop] using this

/-- Claim C9 witness: a contract-honouring oracle reporting line 2 yields an
entry whose stored line number 2 is positive. -/
theorem line_numbers_positive_witness :
    assocFind "a"
        (Modular.content_loop (fun _ _ _ => Except.ok ([⟨some 2, "hi"⟩], none)) "x" false
          [Except.ok ⟨"a", false⟩]) = some [ContentMatch.Line 2 "hi"] ∧
      0 < 2 := by
  constructor
  · decide
  · exact line_numbers_positive (fun _ _ _ => Except.ok ([⟨some 2, "hi"⟩], none)) "x" false
      [Except.ok ⟨"a", false⟩] (by decide) "a" [ContentMatch.Line 2 "hi"] (by decide)
      (ContentMatch.Line 2 "hi") (by decide) 2 "hi" rfl

/-- The restriction under which the two content collectors agree at one walk
item: if the collaborator reports binary detection for that file then it also
reports at least one match callback. -/
def binaryImpliesMatch (co : ContentOracle) (pat : String) (ci : Bool)
    (it : Except String WalkEntry) : Bool :=
  match it with
  | Except.error _ => true
  | Except.ok e =>
    match co pat ci e.path with
    | Except.error _ => true
    | Except.ok (events, binOff) => !binOff.isSome || !events.isEmpty

theorem content_step_agree (co : ContentOracle) (pat : String) (ci : Bool)
    (acc : List (String × List ContentMatch)) (it : Except String WalkEntry)
    (hc : binaryImpliesMatch co pat ci it = true) :
    Mono.content_step co pat ci acc it = Modular.content_step co pat ci acc it := by
  cases it with
  | error s => rfl
  | ok e =>
    simp only [Mono.content_step, Modular.content_step]
    by_cases hd : e.isDir
    · rw [if_pos hd, if_pos hd]
    · rw [if_neg hd, if_neg hd]
      cases hco : co pat ci e.path with
      | error s => rfl
      | ok pr =>
        obtain ⟨events, binOff⟩ := pr
        dsimp only
        cases hb : binOff.isSome with
        | false => simp [hb]
        | true =>
          have hev : events.isEmpty = false := by
            have := hc
            simp only [binaryImpliesMatch, hco, hb, Bool.not_true, Bool.false_or,
              Bool.not_eq_true', List.isEmpty_eq_false] at this
            simpa [List.isEmpty_eq_false] using this
          have hmap : (events.map sinkLine).isEmpty = false := by
            cases events with
            | nil => simp [List.isEmpty] at hev
            | cons a as => simp [List.isEmpty]
          simp [hb, hmap]

/-- Claim C10 counterexample: on a traversal with one file whose content
search reports binary data and zero match callbacks, the monolithic
collector maps the path to a single `BinaryFile` entry while the modular
collector maps it to nothing, so the two mappings differ. -/
theorem search_content_impls_differ :
    assocFind "f"
        (Mono.content_loop (fun _ _ _ => Except.ok ([], some 0)) "hello" false
          [Except.ok ⟨"f", false⟩]) = some [ContentMatch.BinaryFile] ∧
      assocFind "f"
        (Modular.content_loop (fun _ _ _ => Except.ok ([], some 0)) "hello" false
          [Except.ok ⟨"f", false⟩]) = none := by
  decide

/-- Claim C10 (amended): the two coexisting content collectors are
extensionally equal on every traversal in which no file's outcome combines
binary detection with zero accumulated matches; on a binary file with zero
matches they diverge — main.rs emits a single `BinaryFile` entry, search.rs
drops the file. -/
theorem search_content_impls_agree (co : ContentOracle) (pat : String) (ci : Bool)
    (walk : List (Except String WalkEntry))
    (h : ∀ it ∈ walk, binaryImpliesMatch co pat ci it = true) :
    Mono.content_loop co pat ci walk = Modular.content_loop co pat ci walk := by
  have hgen : ∀ (w : List (Except String WalkEntry)) (acc : List (String × List ContentMatch)),
      (∀ it ∈ w, binaryImpliesMatch co pat ci it = true) →
      w.foldl (Mono.content_step co pat ci) acc =
        w.foldl (Modular.content_step co pat ci) acc := by
    intro w
    induction w with
    | nil => intro acc _; rfl
    | cons it rest ih =>
      intro acc hall
      rw [List.foldl_cons, List.foldl_cons,
        content_step_agree co pat ci acc it (hall it (by simp))]
      exact ih _ (fun x hx => hall x (List.mem_cons_of_mem _ hx))
  exact hgen walk [] h

/-- Claim C10 witness: on a binary file with one accumulated match the two
collectors produce identical maps. -/
theorem search_content_impls_agree_witness :
    Mono.content_loop (fun _ _ _ => Except.ok ([⟨some 1, "hit"⟩], some 9)) "h" false
        [Except.ok ⟨"f", false⟩] =
      Modular.content_loop (fun _ _ _ => Except.ok ([⟨some 1, "hit"⟩], some 9)) "h" false
        [Except.ok ⟨"f", false⟩] :=
  search_content_impls_agree (fun _ _ _ => Except.ok ([⟨some 1, "hit"⟩], some 9)) "h" false
    [Except.ok ⟨"f", false⟩] (by decide)

/-- Claim C2: evaluation at the failing input.  For a file whose content
search reports binary data with zero accumulated matches, the monolithic
`main.rs::search_content` (contradicting its own comment, which says the
branch is for files that *had matches* before binary data) stores a
`BinaryFile` entry, while the claim — and the modular
`search.rs::search_content`, evaluated on the same input — requires no entry
at all; on a binary file with one accumulated match the modular collector
stores exactly one `BinaryFile` marker, as the claim states. -/
theorem binary_zero_match_divergence :
    assocFind "g"
        (Mono.search_content { monoCliBase with pattern := "hello" }
          (fun _ _ _ => Except.ok ([], some 3)) [Except.ok ⟨"g", false⟩]) =
      some [ContentMatch.BinaryFile] ∧
      assocFind "g"
        (Modular.search_content { modularCliBase with pattern := some "hello" }
          (fun _ _ _ => Except.ok ([], some 3)) [Except.ok ⟨"g", false⟩]) = none ∧
      assocFind "h"
        (Modular.search_content { modularCliBase with pattern := some "hello" }
          (fun _ _ _ => Except.ok ([⟨some 1, "hello world"⟩], some 20))
          [Except.ok ⟨"h", false⟩]) = some [ContentMatch.BinaryFile] := by
  refine ⟨?_, ?_, ?_⟩ <;> decide
